import Mathlib

/-!
Verification of the SimpleLLM notebook: a word-level transformer with
sinusoidal positional encoding, single-head scaled dot-product self-attention,
transformer blocks (attention + feed-forward + residual + LayerNorm), a
stacked model with an output projection, a prefix-based teacher-forcing
training loop, and an argmax next-token predictor.

The numerical pipeline is embedded over the real numbers. A sequence of
vectors is a function `Fin L → Fin D → ℝ` (`SeqVec`); the parts of the program where
tensor shapes and slicing matter (the positional-encoding buffer and its
broadcasting add, token lists) are embedded over lists.
-/

open Finset

noncomputable section

/-- A `D`-dimensional real vector (one token's channel values). -/
def Vec (D : ℕ) : Type := Fin D → ℝ

instance : Add (Vec D) := ⟨fun v w i => v i + w i⟩

instance : Inhabited (Vec D) := ⟨fun _ => 0⟩

theorem Vec.add_apply {D : ℕ} (v w : Vec D) (i : Fin D) : (v + w) i = v i + w i := rfl

/-- A sequence of `L` vectors of dimension `D` (one per position). -/
def SeqVec (L D : ℕ) : Type := Fin L → Vec D

/-- Parameters of `nn.Linear(inD, outD)`: a weight matrix and a bias. -/
structure LinearParams (inD outD : ℕ) where
  weight : Fin outD → Fin inD → ℝ
  bias : Fin outD → ℝ

/-- `nn.Linear` forward: `W·v + b`. -/
def LinearParams.apply {inD outD : ℕ} (p : LinearParams inD outD) (v : Vec inD) : Vec outD :=
  fun o => (∑ i, p.weight o i * v i) + p.bias o

/-- `torch.softmax` along a row of `n` scores: `exp(s i) / Σ_j exp(s j)`. -/
def softmax {n : ℕ} (s : Fin n → ℝ) : Fin n → ℝ :=
  fun i => Real.exp (s i) / ∑ j, Real.exp (s j)

/-- Parameters of the notebook's `SelfAttention` module: three independent
`D → D` linear projections for queries, keys and values. -/
structure SelfAttentionParams (D : ℕ) where
  query : LinearParams D D
  key : LinearParams D D
  value : LinearParams D D

/-- The raw attention scores of `SelfAttention.forward`:
`scores = torch.bmm(queries, keys.transpose(1, 2)) / torch.sqrt(D)`. -/
def attentionScores {L D : ℕ} (p : SelfAttentionParams D) (x : SeqVec L D) :
    Fin L → Fin L → ℝ :=
  fun q k => (∑ d, p.query.apply (x q) d * p.key.apply (x k) d) / Real.sqrt (D : ℝ)

/-- `attention_weights = torch.softmax(scores, dim=-1)`: softmax over the key
axis, one row per query position. -/
def attentionWeights {L D : ℕ} (p : SelfAttentionParams D) (x : SeqVec L D) :
    Fin L → Fin L → ℝ :=
  fun q => softmax (attentionScores p x q)

/-- `SelfAttention.forward`: project into queries/keys/values, form the scaled
scores, softmax over keys, and return `attended_values = torch.bmm(weights, values)`. -/
def SelfAttention.forward {L D : ℕ} (p : SelfAttentionParams D) (x : SeqVec L D) : SeqVec L D :=
  fun q d => ∑ k, attentionWeights p x q k * p.value.apply (x k) d

/-- The spec's formula for attention, written in matrix algebra:
`softmax(Q·Kᵀ / sqrt(D)) · V` with `Q`, `K`, `V` the three learned projections
applied rowwise. Stated per the spec's words, to be compared with the
source-derived `SelfAttention.forward`. -/
def attentionSpecFormula {L D : ℕ} (p : SelfAttentionParams D) (x : SeqVec L D) : SeqVec L D :=
  let Q : Matrix (Fin L) (Fin D) ℝ := Matrix.of fun i => p.query.apply (x i)
  let K : Matrix (Fin L) (Fin D) ℝ := Matrix.of fun i => p.key.apply (x i)
  let V : Matrix (Fin L) (Fin D) ℝ := Matrix.of fun i => p.value.apply (x i)
  let scores : Matrix (Fin L) (Fin L) ℝ :=
    Matrix.of fun i j => (Q * K.transpose) i j / Real.sqrt (D : ℝ)
  let W : Matrix (Fin L) (Fin L) ℝ := Matrix.of fun i => softmax (scores i)
  fun i => (W * V) i

theorem softmax_pos {n : ℕ} (s : Fin n → ℝ) (i : Fin n) : 0 < softmax s i := by
  have hi : (0 : ℝ) < Real.exp (s i) := Real.exp_pos _
  have hsum : (0 : ℝ) < ∑ j, Real.exp (s j) := by
    refine Finset.sum_pos (fun j _ => Real.exp_pos _) ⟨i, Finset.mem_univ i⟩
  exact div_pos hi hsum

theorem softmax_sum {n : ℕ} (s : Fin n → ℝ) (hn : 0 < n) :
    ∑ i, softmax s i = 1 := by
  have hsum : (0 : ℝ) < ∑ j, Real.exp (s j) := by
    refine Finset.sum_pos (fun j _ => Real.exp_pos _) ?_
    exact ⟨⟨0, hn⟩, Finset.mem_univ _⟩
  unfold softmax
  rw [← Finset.sum_div, div_self (ne_of_gt hsum)]

/-- C1: `SelfAttention.forward` computes exactly the spec's
`softmax(Q·Kᵀ / √D)·V` with independent learned `Q`, `K`, `V` projections, and
no causal mask is applied: every attention weight is strictly positive, so the
output at every query position takes a positive-weight contribution from every
position, later ones included. -/
theorem claim_C1 {L D : ℕ} (p : SelfAttentionParams D) (x : SeqVec L D) :
    SelfAttention.forward p x = attentionSpecFormula p x ∧
      ∀ q k : Fin L, 0 < attentionWeights p x q k := by
  constructor
  · funext q d
    rfl
  · exact fun q k => softmax_pos _ k

/-- C5: each row of attention weights (softmax over the key axis of the scaled
scores) is non-negative and sums to 1. -/
theorem claim_C5 {L D : ℕ} (p : SelfAttentionParams D) (x : SeqVec L D) (q : Fin L) :
    (∑ k, attentionWeights p x q k) = 1 ∧ ∀ k, 0 ≤ attentionWeights p x q k := by
  constructor
  · exact softmax_sum _ q.pos
  · exact fun k => le_of_lt (softmax_pos _ k)

/-- C9: `SelfAttention.forward` is permutation-equivariant: feeding in the
sequence reindexed by a permutation `π` of the positions yields the output of
the original sequence reindexed by `π`. All position information in the model
therefore comes from the positional encoder. -/
theorem claim_C9 {L D : ℕ} (p : SelfAttentionParams D) (x : SeqVec L D)
    (π : Equiv.Perm (Fin L)) :
    SelfAttention.forward p (fun i => x (π i)) = fun i => SelfAttention.forward p x (π i) := by
  funext q d
  have hscores : ∀ a b : Fin L,
      attentionScores p (fun i => x (π i)) a b = attentionScores p x (π a) (π b) := by
    intro a b; rfl
  have hw : ∀ k : Fin L,
      attentionWeights p (fun i => x (π i)) q k = attentionWeights p x (π q) (π k) := by
    intro k
    have hden : (∑ j, Real.exp (attentionScores p (fun i => x (π i)) q j)) =
        ∑ j, Real.exp (attentionScores p x (π q) j) := by
      rw [Finset.sum_congr rfl (fun j _ => by rw [hscores q j])]
      exact Equiv.sum_comp π (fun j => Real.exp (attentionScores p x (π q) j))
    unfold attentionWeights softmax
    rw [hscores q k, hden]
  unfold SelfAttention.forward
  calc (∑ k, attentionWeights p (fun i => x (π i)) q k * p.value.apply (x (π k)) d)
      = ∑ k, attentionWeights p x (π q) (π k) * p.value.apply (x (π k)) d := by
        exact Finset.sum_congr rfl (fun k _ => by rw [hw k])
    _ = ∑ k, attentionWeights p x (π q) k * p.value.apply (x k) d :=
        Equiv.sum_comp π (fun k => attentionWeights p x (π q) k * p.value.apply (x k) d)

/-- Element `i` of `PositionalEncoding.__init__`'s
`div_term = torch.exp(torch.arange(0, D, 2).float() * (-math.log(10000.0) / D))`,
i.e. `exp(2i · (−ln 10000)/D)`. -/
def divTerm (D i : ℕ) : ℝ :=
  Real.exp ((2 * (i : ℝ)) * (-Real.log 10000 / (D : ℝ)))

/-- Row `p` of the `pe` buffer built in `PositionalEncoding.__init__`:
even channels hold `sin(p · div_term)`, odd channels hold `cos(p · div_term)`. -/
def posTable (D p : ℕ) : Vec D :=
  fun c => if (c : ℕ) % 2 = 0 then Real.sin ((p : ℝ) * divTerm D ((c : ℕ) / 2))
           else Real.cos ((p : ℝ) * divTerm D ((c : ℕ) / 2))

/-- The positional buffer as a list of `maxLen` rows (the sequence dimension of
the stored `pe` tensor; its singleton middle dimension broadcasts away). -/
def peRows (maxLen D : ℕ) : List (Vec D) :=
  (List.range maxLen).map (posTable D)

/-- PyTorch broadcasting semantics of `x + pe_slice` along the sequence
dimension: the add succeeds iff the two lengths agree or one of them is 1
(which is then broadcast); otherwise the operation raises a shape error,
modelled as `none`. -/
def broadcastAddSeq {D : ℕ} (x pe : List (Vec D)) : Option (List (Vec D)) :=
  if x.length = pe.length then some (List.zipWith (fun a b => a + b) x pe)
  else if pe.length = 1 then some (x.map (fun a => a + pe.headI))
  else if x.length = 1 then some (pe.map (fun b => x.headI + b))
  else none

/-- `PositionalEncoding.forward`: `x + self.pe[:x.size(0), :]`. The slice
keeps at most the first `x.length` rows of the buffer, and the add follows
broadcasting rules. -/
def PositionalEncoding.forward (maxLen : ℕ) {D : ℕ} (x : List (Vec D)) :
    Option (List (Vec D)) :=
  broadcastAddSeq x ((peRows maxLen D).take x.length)

theorem divTerm_eq (D i : ℕ) :
    divTerm D i = ((10000 : ℝ) ^ ((2 * (i : ℝ)) / (D : ℝ)))⁻¹ := by
  unfold divTerm
  rw [Real.rpow_def_of_pos (by norm_num : (0 : ℝ) < 10000), ← Real.exp_neg]
  congr 1
  ring

theorem posTable_even (D p i : ℕ) (h : 2 * i < D) :
    posTable D p ⟨2 * i, h⟩ =
      Real.sin ((p : ℝ) / (10000 : ℝ) ^ ((2 * (i : ℝ)) / (D : ℝ))) := by
  unfold posTable
  have hmod : (2 * i) % 2 = 0 := by omega
  have hdiv : (2 * i) / 2 = i := by omega
  simp only [hmod, hdiv, if_true]
  rw [divTerm_eq, ← div_eq_mul_inv]

theorem posTable_odd (D p i : ℕ) (h : 2 * i + 1 < D) :
    posTable D p ⟨2 * i + 1, h⟩ =
      Real.cos ((p : ℝ) / (10000 : ℝ) ^ ((2 * (i : ℝ)) / (D : ℝ))) := by
  unfold posTable
  have hmod : ¬ ((2 * i + 1) % 2 = 0) := by omega
  have hdiv : (2 * i + 1) / 2 = i := by omega
  simp only [hdiv, if_neg hmod]
  rw [divTerm_eq, ← div_eq_mul_inv]

/-- C3: for inputs of length within the configured maximum, the positional
encoder succeeds, preserves the shape, adds exactly row `p` of the precomputed
table to position `p`, and that table's channel `2i` is
`sin(p / 10000^(2i/D))` while channel `2i+1` is `cos(p / 10000^(2i/D))` (the
code's `exp(2i·(−ln 10000)/D)` divisor equals `10000^(−2i/D)`). -/
theorem claim_C3 {D maxLen : ℕ} (x : List (Vec D)) (hL : x.length ≤ maxLen) :
    (∃ y, PositionalEncoding.forward maxLen x = some y ∧ y.length = x.length ∧
      ∀ p : Fin x.length, ∀ c : Fin D,
        (y.getD (p : ℕ) default) c - (x.get p) c = posTable D (p : ℕ) c) ∧
    (∀ p i : ℕ, ∀ h2i : 2 * i < D, posTable D p ⟨2 * i, h2i⟩ =
        Real.sin ((p : ℝ) / (10000 : ℝ) ^ ((2 * (i : ℝ)) / (D : ℝ)))) ∧
    (∀ p i : ℕ, ∀ h2i : 2 * i + 1 < D, posTable D p ⟨2 * i + 1, h2i⟩ =
        Real.cos ((p : ℝ) / (10000 : ℝ) ^ ((2 * (i : ℝ)) / (D : ℝ)))) := by
  refine ⟨?_, fun p i h2i => posTable_even D p i h2i,
    fun p i h2i => posTable_odd D p i h2i⟩
  have hpe : ((peRows maxLen D).take x.length).length = x.length := by
    simp [peRows, List.length_take]
    omega
  refine ⟨List.zipWith (fun a b => a + b) x ((peRows maxLen D).take x.length), ?_, ?_, ?_⟩
  · unfold PositionalEncoding.forward broadcastAddSeq
    rw [if_pos hpe.symm]
  · simp [List.length_zipWith, hpe]
  · intro p c
    have hplt : (p : ℕ) < (List.zipWith (fun a b : Vec D => a + b) x
        ((peRows maxLen D).take x.length)).length := by
      simp [List.length_zipWith, hpe]
    rw [List.getD_eq_getElem _ _ hplt, List.getElem_zipWith, List.getElem_take]
    simp only [peRows, List.getElem_map, List.getElem_range]
    show (x.get p + posTable D (p : ℕ)) c - (x.get p) c = posTable D (p : ℕ) c
    rw [Vec.add_apply]
    ring

/-- C7 (amended): when the input length exceeds the configured maximum and
that maximum is at least 2 (as the default 5000 is), the slice keeps only
`maxLen` rows, the broadcasting add has incompatible lengths, and
`PositionalEncoding.forward` fails rather than returning a (truncated or
wrapped) result. With a configured maximum of 1 the single stored row
broadcasts silently instead (see the counterexample). -/
theorem claim_C7 {D : ℕ} (maxLen : ℕ) (x : List (Vec D)) (h2 : 2 ≤ maxLen)
    (hL : maxLen < x.length) :
    PositionalEncoding.forward maxLen x = none := by
  unfold PositionalEncoding.forward broadcastAddSeq
  have hpe : ((peRows maxLen D).take x.length).length = maxLen := by
    simp [peRows, List.length_take]
    omega
  rw [hpe, if_neg (by omega), if_neg (by omega), if_neg (by omega)]

/-- Witness for C3 at `D = 2`, `maxLen = 5`, a single zero vector as input. -/
theorem claim_C3_witness :
    (∃ y, PositionalEncoding.forward 5 [(fun _ => 0 : Vec 2)] = some y ∧
      y.length = [(fun _ => 0 : Vec 2)].length ∧
      ∀ p : Fin [(fun _ => 0 : Vec 2)].length, ∀ c : Fin 2,
        (y.getD (p : ℕ) default) c - ([(fun _ => 0 : Vec 2)].get p) c =
          posTable 2 (p : ℕ) c) ∧
    (∀ p i : ℕ, ∀ h2i : 2 * i < 2, posTable 2 p ⟨2 * i, h2i⟩ =
        Real.sin ((p : ℝ) / (10000 : ℝ) ^ ((2 * (i : ℝ)) / (2 : ℕ)))) ∧
    (∀ p i : ℕ, ∀ h2i : 2 * i + 1 < 2, posTable 2 p ⟨2 * i + 1, h2i⟩ =
        Real.cos ((p : ℝ) / (10000 : ℝ) ^ ((2 * (i : ℝ)) / (2 : ℕ)))) :=
  claim_C3 [(fun _ => 0 : Vec 2)] (by rw [List.length_singleton]; omega)

/-- C7 counterexample: with the maximum configured to 1 and an input of
length 2 > 1, the sliced buffer has a single row, PyTorch broadcasting
accepts the size-1 dimension, and the forward call silently returns a result
(the row added to every position) instead of failing. -/
theorem claim_C7_counterexample :
    PositionalEncoding.forward 1 [(fun _ => 0 : Vec 1), (fun _ => 0 : Vec 1)] ≠ none := by
  have h : PositionalEncoding.forward 1 [(fun _ => 0 : Vec 1), (fun _ => 0 : Vec 1)] =
      some ([(fun _ => 0 : Vec 1), (fun _ => 0 : Vec 1)].map
        (fun a => a + ((peRows 1 1).take 2).headI)) := rfl
  rw [h]
  exact Option.some_ne_none _

/-- The `eps` constant of `nn.LayerNorm` (PyTorch default `1e-5`), added to
the per-token variance before the square root. -/
def lnEps : ℝ := 1 / 100000

/-- Mean of a token's channel values. -/
def vecMean {D : ℕ} (v : Vec D) : ℝ := (∑ i, v i) / (D : ℝ)

/-- Biased per-token variance across the channel axis (as `nn.LayerNorm`
computes it). -/
def vecVar {D : ℕ} (v : Vec D) : ℝ := (∑ i, (v i - vecMean v) ^ 2) / (D : ℝ)

/-- The normalization part of `nn.LayerNorm`:
`(v - mean) / sqrt(var + eps)`, per token across channels only. -/
def normalizeToken {D : ℕ} (v : Vec D) : Vec D :=
  fun i => (v i - vecMean v) / Real.sqrt (vecVar v + lnEps)

/-- Learned per-channel scale and shift of `nn.LayerNorm`. -/
structure LayerNormParams (D : ℕ) where
  weight : Vec D
  bias : Vec D

/-- `nn.LayerNorm` forward: normalize, then elementwise scale and shift. -/
def LayerNormParams.apply {D : ℕ} (p : LayerNormParams D) (v : Vec D) : Vec D :=
  fun i => normalizeToken v i * p.weight i + p.bias i

/-- `nn.ReLU`. -/
def relu (r : ℝ) : ℝ := max r 0

/-- The block's `feed_forward = nn.Sequential(Linear(D, H), ReLU(), Linear(H, D))`. -/
structure FeedForwardParams (D H : ℕ) where
  lin1 : LinearParams D H
  lin2 : LinearParams H D

/-- Forward pass of the feed-forward sublayer. -/
def FeedForwardParams.apply {D H : ℕ} (p : FeedForwardParams D H) (v : Vec D) : Vec D :=
  p.lin2.apply (fun h => relu (p.lin1.apply v h))

/-- Parameters of the notebook's `TransformerBlock`. -/
structure TransformerBlockParams (D H : ℕ) where
  attention : SelfAttentionParams D
  feedForward : FeedForwardParams D H
  norm1 : LayerNormParams D
  norm2 : LayerNormParams D

/-- `TransformerBlock.forward`:
`x1 = norm1(x + attention(x))`, `x2 = norm2(x1 + feed_forward(x1))`. -/
def TransformerBlock.forward {L D H : ℕ} (b : TransformerBlockParams D H)
    (x : SeqVec L D) : SeqVec L D :=
  let attended := SelfAttention.forward b.attention x
  let x1 : SeqVec L D := fun i => b.norm1.apply (x i + attended i)
  let forwarded : SeqVec L D := fun i => b.feedForward.apply (x1 i)
  fun i => b.norm2.apply (x1 i + forwarded i)

theorem sum_sub_mean {D : ℕ} (v : Vec D) : (∑ i, (v i - vecMean v)) = 0 := by
  rcases Nat.eq_zero_or_pos D with h | h
  · subst h
    simp
  · have hD : (D : ℝ) ≠ 0 := Nat.cast_ne_zero.mpr (by omega)
    rw [Finset.sum_sub_distrib, Finset.sum_const, Finset.card_univ, Fintype.card_fin,
      nsmul_eq_mul, vecMean]
    field_simp

theorem normalizeToken_sum {D : ℕ} (v : Vec D) : (∑ i, normalizeToken v i) = 0 := by
  unfold normalizeToken
  rw [← Finset.sum_div, sum_sub_mean, zero_div]

theorem normalizeToken_mean {D : ℕ} (v : Vec D) : vecMean (normalizeToken v) = 0 := by
  have h : vecMean (normalizeToken v) = (∑ i, normalizeToken v i) / (D : ℝ) := rfl
  rw [h, normalizeToken_sum, zero_div]

theorem vecVar_nonneg {D : ℕ} (v : Vec D) : 0 ≤ vecVar v :=
  div_nonneg (Finset.sum_nonneg fun _ _ => sq_nonneg _) (Nat.cast_nonneg D)

theorem normalizeToken_var {D : ℕ} (v : Vec D) :
    vecVar (normalizeToken v) = vecVar v / (vecVar v + lnEps) := by
  have hpos : 0 < vecVar v + lnEps := by
    have hnn := vecVar_nonneg v
    unfold lnEps
    linarith
  have hs : Real.sqrt (vecVar v + lnEps) ^ 2 = vecVar v + lnEps :=
    Real.sq_sqrt (le_of_lt hpos)
  have hvar : vecVar (normalizeToken v) =
      (∑ i, (normalizeToken v i - vecMean (normalizeToken v)) ^ 2) / (D : ℝ) := rfl
  rw [hvar, normalizeToken_mean]
  have hsq : ∀ i, (normalizeToken v i - 0) ^ 2 =
      (v i - vecMean v) ^ 2 / (vecVar v + lnEps) := by
    intro i
    rw [sub_zero]
    show ((v i - vecMean v) / Real.sqrt (vecVar v + lnEps)) ^ 2 = _
    rw [div_pow, hs]
  rw [Finset.sum_congr rfl (fun i _ => hsq i), ← Finset.sum_div, div_right_comm]
  rfl

/-- The concrete token vector `(0, 2)` used to refute exact unit variance. -/
def vEx : Vec 2 := fun i => 2 * ((i : ℕ) : ℝ)

/-- Identity scale and zero shift, so `LayerNorm` returns the bare
normalization. -/
def lnUnitParams : LayerNormParams 2 := ⟨fun _ => 1, fun _ => 0⟩

/-- C4 counterexample: `nn.LayerNorm` adds `eps = 1e-5` to the variance before
the square root, so the normalized token does not have exactly unit variance:
on the token `(0, 2)` with identity scale and zero shift, the output's
variance is `1/(1 + 1e-5) ≠ 1`. -/
theorem claim_C4_counterexample :
    vecVar (LayerNormParams.apply lnUnitParams vEx) ≠ 1 := by
  have happ : LayerNormParams.apply lnUnitParams vEx = normalizeToken vEx := by
    funext i
    show normalizeToken vEx i * 1 + 0 = normalizeToken vEx i
    ring
  have hmean : vecMean vEx = 1 := by
    unfold vecMean vEx
    rw [Fin.sum_univ_two]
    norm_num
  have hvarEx : vecVar vEx = 1 := by
    unfold vecVar
    rw [hmean, Fin.sum_univ_two]
    unfold vEx
    norm_num
  rw [happ, normalizeToken_var, hvarEx]
  unfold lnEps
  norm_num

/-- C4 (amended): `TransformerBlock.forward` returns
`x2 = LayerNorm(x1 + FeedForward(x1))` with `x1 = LayerNorm(x + SelfAttention(x))`,
the feed-forward sublayer is `Linear(D→H) → ReLU → Linear(H→D)`, and each
LayerNorm normalizes per token across the channel axis only — to zero mean and
variance `σ²/(σ² + ε)` with `ε = 1e-5` (unit variance only in the `ε = 0`
idealization) — and then applies its learned per-channel scale and shift. -/
theorem claim_C4_amended :
    (∀ (L D H : ℕ) (b : TransformerBlockParams D H) (x : SeqVec L D),
      TransformerBlock.forward b x = fun i =>
        b.norm2.apply
          (b.norm1.apply (x i + SelfAttention.forward b.attention x i) +
            b.feedForward.apply
              (b.norm1.apply (x i + SelfAttention.forward b.attention x i)))) ∧
    (∀ (D H : ℕ) (f : FeedForwardParams D H) (v : Vec D),
      f.apply v = f.lin2.apply (fun h => relu (f.lin1.apply v h))) ∧
    (∀ (D : ℕ) (p : LayerNormParams D) (v : Vec D),
      p.apply v = fun i => normalizeToken v i * p.weight i + p.bias i) ∧
    (∀ (D : ℕ) (v : Vec D), vecMean (normalizeToken v) = 0) ∧
    (∀ (D : ℕ) (v : Vec D), vecVar (normalizeToken v) = vecVar v / (vecVar v + lnEps)) :=
  ⟨fun _ _ _ _ _ => rfl, fun _ _ _ _ => rfl, fun _ _ _ => rfl,
    fun _ v => normalizeToken_mean v, fun _ v => normalizeToken_var v⟩

/-- Witness for C7 at the default `maxLen = 5000` and an input of 5001 zero
vectors. -/
theorem claim_C7_witness :
    PositionalEncoding.forward 5000 (List.replicate 5001 (fun _ => 0 : Vec 2)) = none :=
  claim_C7 5000 (List.replicate 5001 (fun _ => 0 : Vec 2)) (by omega)
    (by rw [List.length_replicate]; omega)

/-- Parameters of `SimpleLLM`: the embedding table, `num_layers` transformer
blocks, and the output projection `nn.Linear(D, vocab_size)`. The positional
table is not a parameter: it is recomputed from `D` by `posTable`. -/
structure SimpleLLMParams (V D H : ℕ) where
  embedding : Fin V → Vec D
  blocks : List (TransformerBlockParams D H)
  output : LinearParams D V

/-- `SimpleLLM.forward` on a single (batch-1) sequence of `L` token ids with
`L` within the positional maximum: embedding lookup, add positional row `i` at
position `i` (the transposes in the source move the sequence axis first and
back for this add), the stacked transformer blocks, then the output
projection at every position. -/
def SimpleLLM.forward {V D H : ℕ} (m : SimpleLLMParams V D H) {L : ℕ}
    (ts : Fin L → Fin V) : Fin L → Vec V :=
  let x0 : SeqVec L D := fun i => m.embedding (ts i) + posTable D (i : ℕ)
  let xN : SeqVec L D := m.blocks.foldl (fun x b => TransformerBlock.forward b x) x0
  fun i => m.output.apply (xN i)

/-- `output[:, -1, :]`: the logits at the last position of the model's output
(zero vector on an empty input, on which the source would fail to index). -/
def SimpleLLM.lastLogits {V D H : ℕ} (m : SimpleLLMParams V D H)
    (ts : List (Fin V)) : Vec V :=
  if h : 0 < ts.length then
    SimpleLLM.forward m ts.get ⟨ts.length - 1, by omega⟩
  else fun _ => 0

/-- The scan of `torch.argmax` over indices `0, …, n−1` in order, keeping the
current best and replacing it only on a strictly larger value, so the first
occurrence of the maximum wins. -/
def torchArgmaxAux (f : ℕ → ℝ) : ℕ → ℕ
  | 0 => 0
  | k + 1 => if f (torchArgmaxAux f k) < f k then k else torchArgmaxAux f k

/-- A `Fin V`-indexed row extended to `ℕ` (indices ≥ `V` give a junk 0 that
the scan over `0, …, V−1` never uses). -/
def finExtend {V : ℕ} (g : Fin V → ℝ) : ℕ → ℝ :=
  fun j => if h : j < V then g ⟨j, h⟩ else 0

/-- `torch.argmax` over a row of `V` logits. -/
def torchArgmax {V : ℕ} (g : Fin V → ℝ) : ℕ :=
  torchArgmaxAux (finExtend g) V

/-- The prediction cell: run the model on the prefix, take the logits at the
last position, and return `torch.argmax(...).item()`. -/
def SimpleLLM.predictTok {V D H : ℕ} (m : SimpleLLMParams V D H)
    (ts : List (Fin V)) : ℕ :=
  torchArgmax (SimpleLLM.lastLogits m ts)

theorem torchArgmaxAux_lt (f : ℕ → ℝ) : ∀ n, 0 < n → torchArgmaxAux f n < n := by
  intro n
  induction n with
  | zero => omega
  | succ k ih =>
    intro _
    show (if f (torchArgmaxAux f k) < f k then k else torchArgmaxAux f k) < k + 1
    by_cases hc : f (torchArgmaxAux f k) < f k
    · rw [if_pos hc]; omega
    · rw [if_neg hc]
      rcases Nat.eq_zero_or_pos k with hk | hk
      · subst hk
        show torchArgmaxAux f 0 < 1
        show (0 : ℕ) < 1
        omega
      · exact Nat.lt_succ_of_lt (ih hk)

theorem torchArgmaxAux_le (f : ℕ → ℝ) :
    ∀ n, ∀ j, j < n → f j ≤ f (torchArgmaxAux f n) := by
  intro n
  induction n with
  | zero => omega
  | succ k ih =>
    intro j hj
    show f j ≤ f (if f (torchArgmaxAux f k) < f k then k else torchArgmaxAux f k)
    by_cases hc : f (torchArgmaxAux f k) < f k
    · rw [if_pos hc]
      rcases Nat.lt_succ_iff_lt_or_eq.mp hj with h | h
      · exact le_of_lt (lt_of_le_of_lt (ih j h) hc)
      · subst h; exact le_refl _
    · rw [if_neg hc]
      rcases Nat.lt_succ_iff_lt_or_eq.mp hj with h | h
      · exact ih j h
      · subst h; exact not_lt.mp hc

theorem torchArgmaxAux_first (f : ℕ → ℝ) :
    ∀ n, ∀ j, j < torchArgmaxAux f n → f j < f (torchArgmaxAux f n) := by
  intro n
  induction n with
  | zero =>
    intro j h
    rw [show torchArgmaxAux f 0 = 0 from rfl] at h
    omega
  | succ k ih =>
    intro j hj
    rw [show torchArgmaxAux f (k + 1) =
      if f (torchArgmaxAux f k) < f k then k else torchArgmaxAux f k from rfl] at hj ⊢
    by_cases hc : f (torchArgmaxAux f k) < f k
    · rw [if_pos hc] at hj ⊢
      exact lt_of_le_of_lt (torchArgmaxAux_le f k j hj) hc
    · rw [if_neg hc] at hj ⊢
      exact ih j hj

theorem finExtend_at {V : ℕ} (g : Fin V → ℝ) (j : ℕ) (h : j < V) :
    finExtend g j = g ⟨j, h⟩ := dif_pos h

/-- C6: for every model and non-empty prefix, the predictor takes the logits
at the last position only and returns the id with the maximum logit, ties
broken by the lowest id; as a pure function of model and prefix it is
deterministic. -/
theorem claim_C6 {V D H : ℕ} (m : SimpleLLMParams V D H) (ts : List (Fin V))
    (hne : ts ≠ []) :
    ∃ hlt : SimpleLLM.predictTok m ts < V,
      (∀ j : Fin V, SimpleLLM.lastLogits m ts j ≤
          SimpleLLM.lastLogits m ts ⟨SimpleLLM.predictTok m ts, hlt⟩) ∧
      (∀ j : Fin V, SimpleLLM.lastLogits m ts j =
          SimpleLLM.lastLogits m ts ⟨SimpleLLM.predictTok m ts, hlt⟩ →
          SimpleLLM.predictTok m ts ≤ (j : ℕ)) ∧
      (∃ hL : 0 < ts.length,
          SimpleLLM.lastLogits m ts =
            SimpleLLM.forward m ts.get ⟨ts.length - 1, Nat.sub_lt hL Nat.one_pos⟩) ∧
      SimpleLLM.predictTok m ts = SimpleLLM.predictTok m ts := by
  have hL : 0 < ts.length := List.length_pos.mpr hne
  have hV : 0 < V := (ts.get ⟨0, hL⟩).pos
  have hlt : SimpleLLM.predictTok m ts < V := torchArgmaxAux_lt _ V hV
  set g := SimpleLLM.lastLogits m ts with hg
  refine ⟨hlt, ?_, ?_, ⟨hL, ?_⟩, rfl⟩
  · intro j
    have hle := torchArgmaxAux_le (finExtend g) V (j : ℕ) j.isLt
    rw [show torchArgmaxAux (finExtend g) V = SimpleLLM.predictTok m ts from rfl] at hle
    rw [finExtend_at g (j : ℕ) j.isLt] at hle
    rw [finExtend_at g _ hlt] at hle
    simpa using hle
  · intro j hj
    by_contra hcon
    have hjlt : (j : ℕ) < SimpleLLM.predictTok m ts := by omega
    have hfirst := torchArgmaxAux_first (finExtend g) V (j : ℕ)
      (by exact hjlt)
    rw [show torchArgmaxAux (finExtend g) V = SimpleLLM.predictTok m ts from rfl] at hfirst
    rw [finExtend_at g (j : ℕ) j.isLt] at hfirst
    rw [finExtend_at g _ hlt] at hfirst
    simp only [Fin.eta] at hfirst
    rw [hj] at hfirst
    exact lt_irrefl _ hfirst
  · unfold SimpleLLM.lastLogits at hg
    rw [dif_pos hL] at hg
    exact hg

/-- A concrete all-zero model with vocabulary 1, `D = H = 1` and no blocks. -/
def mEx : SimpleLLMParams 1 1 1 :=
  ⟨fun _ => (fun _ => 0), [], ⟨fun _ _ => 0, fun _ => 0⟩⟩

/-- Witness for C6: the predictor applied to `mEx` on the one-token prefix. -/
theorem claim_C6_witness :
    ∃ hlt : SimpleLLM.predictTok mEx [(0 : Fin 1)] < 1,
      (∀ j : Fin 1, SimpleLLM.lastLogits mEx [(0 : Fin 1)] j ≤
          SimpleLLM.lastLogits mEx [(0 : Fin 1)]
            ⟨SimpleLLM.predictTok mEx [(0 : Fin 1)], hlt⟩) ∧
      (∀ j : Fin 1, SimpleLLM.lastLogits mEx [(0 : Fin 1)] j =
          SimpleLLM.lastLogits mEx [(0 : Fin 1)]
            ⟨SimpleLLM.predictTok mEx [(0 : Fin 1)], hlt⟩ →
          SimpleLLM.predictTok mEx [(0 : Fin 1)] ≤ (j : ℕ)) ∧
      (∃ hL : 0 < [(0 : Fin 1)].length,
          SimpleLLM.lastLogits mEx [(0 : Fin 1)] =
            SimpleLLM.forward mEx [(0 : Fin 1)].get
              ⟨[(0 : Fin 1)].length - 1, Nat.sub_lt hL Nat.one_pos⟩) ∧
      SimpleLLM.predictTok mEx [(0 : Fin 1)] = SimpleLLM.predictTok mEx [(0 : Fin 1)] :=
  claim_C6 mEx [(0 : Fin 1)] (by simp)

/-- `nn.CrossEntropyLoss` on a single example, as documented:
`loss(z, t) = log Σ_j exp(z_j) − z_t`. -/
def crossEntropyLoss {V : ℕ} (z : Vec V) (t : Fin V) : ℝ :=
  Real.log (∑ j, Real.exp (z j)) - z t

/-- The loss the training loop computes for one prefix:
`criterion(output[:, -1, :], target)` — cross-entropy against the logits at
the last position only. -/
def Trainer.lossAt {V D H : ℕ} (m : SimpleLLMParams V D H) (input : List (Fin V))
    (t : Fin V) : ℝ :=
  crossEntropyLoss (SimpleLLM.lastLogits m input) t

/-- The inner training loop of cell 7, for one tokenized sentence:
`for i in range(1, len(sentence)):` run one complete update (zero_grad,
forward on `sentence[:i]`, loss against `sentence[i]`, backward, optimizer
step) per prefix. The whole per-example update is the abstract `upd` (the
optimizer's internal rule is out of scope). -/
def Trainer.trainSentence {P : Type} (upd : P → List ℕ → ℕ → P) (s : List ℕ)
    (θ : P) : P :=
  (List.range' 1 (s.length - 1)).foldl (fun a i => upd a (s.take i) (s.getD i 0)) θ

/-- The training examples a sentence generates, as the spec describes them:
for each prefix length `i` from 1 to `len(S) − 1` in order, input `S[0:i]`
and target `S[i]`. -/
def Trainer.trainExamples (s : List ℕ) : List (List ℕ × ℕ) :=
  (List.range' 1 (s.length - 1)).map (fun i => (s.take i, s.getD i 0))

/-- C2: the per-sentence training loop performs exactly one independent
update per prefix, over the examples `(S[0:i], S[i])` for `i = 1, …,
len(S)−1` in order (a fresh `upd` application per example — no accumulation
across prefixes); a sentence of length < 2 generates no examples and leaves
the parameters unchanged; and the loss of one example is the cross-entropy
`−log softmax` of the logits at the last position against the single target. -/
theorem claim_C2 :
    (∀ (P : Type) (upd : P → List ℕ → ℕ → P) (s : List ℕ) (θ : P),
      Trainer.trainSentence upd s θ =
        (Trainer.trainExamples s).foldl (fun a e => upd a e.1 e.2) θ) ∧
    (∀ (P : Type) (upd : P → List ℕ → ℕ → P) (s : List ℕ) (θ : P),
      s.length < 2 → Trainer.trainSentence upd s θ = θ) ∧
    (∀ s : List ℕ, (Trainer.trainExamples s).length = s.length - 1) ∧
    (∀ (s : List ℕ) (j : ℕ), j < s.length - 1 →
      (Trainer.trainExamples s).getD j ([], 0) = (s.take (j + 1), s.getD (j + 1) 0)) ∧
    (∀ (V D H : ℕ) (m : SimpleLLMParams V D H) (input : List (Fin V)) (t : Fin V)
      (hne : input ≠ []),
      Trainer.lossAt m input t =
        -Real.log (softmax (SimpleLLM.forward m input.get
          ⟨input.length - 1, Nat.sub_lt (List.length_pos.mpr hne) Nat.one_pos⟩) t)) := by
  refine ⟨?_, ?_, ?_, ?_, ?_⟩
  · intro P upd s θ
    unfold Trainer.trainSentence Trainer.trainExamples
    rw [List.foldl_map]
  · intro P upd s θ hlen
    unfold Trainer.trainSentence
    rw [show s.length - 1 = 0 by omega]
    rfl
  · intro s
    unfold Trainer.trainExamples
    rw [List.length_map, List.length_range']
  · intro s j hj
    unfold Trainer.trainExamples
    have hjlen : j < ((List.range' 1 (s.length - 1)).map
        (fun i => (s.take i, s.getD i 0))).length := by
      rw [List.length_map, List.length_range']
      exact hj
    rw [List.getD_eq_getElem _ _ hjlen, List.getElem_map, List.getElem_range']
    rw [show 1 + 1 * j = j + 1 by omega]
  · intro V D H m input t hne
    have hL : 0 < input.length := List.length_pos.mpr hne
    have hlog : SimpleLLM.lastLogits m input =
        SimpleLLM.forward m input.get
          ⟨input.length - 1, Nat.sub_lt (List.length_pos.mpr hne) Nat.one_pos⟩ := by
      unfold SimpleLLM.lastLogits
      rw [dif_pos hL]
    unfold Trainer.lossAt crossEntropyLoss
    rw [hlog]
    have hsum : (0 : ℝ) < ∑ j, Real.exp (SimpleLLM.forward m input.get
        ⟨input.length - 1, Nat.sub_lt (List.length_pos.mpr hne) Nat.one_pos⟩ j) :=
      Finset.sum_pos (fun j _ => Real.exp_pos _) ⟨t, Finset.mem_univ t⟩
    unfold softmax
    rw [Real.log_div (Real.exp_ne_zero _) (ne_of_gt hsum), Real.log_exp]
    ring

/-- Witness for C2 on concrete sentences: an empty-ish sentence trains
nothing, the second example of `[5, 6, 7]` is `([5, 6], 7)`, and the loss of
the one-token prefix under the zero model is as stated. -/
theorem claim_C2_witness :
    Trainer.trainSentence (fun (a : ℕ) _ _ => a + 1) [9] 0 = 0 ∧
    (Trainer.trainExamples [5, 6, 7]).getD 1 ([], 0) =
      ([5, 6, 7].take 2, [5, 6, 7].getD 2 0) ∧
    Trainer.lossAt mEx [(0 : Fin 1)] 0 =
      -Real.log (softmax (SimpleLLM.forward mEx ([(0 : Fin 1)].get)
        ⟨[(0 : Fin 1)].length - 1,
          Nat.sub_lt (List.length_pos.mpr (by simp)) Nat.one_pos⟩) 0) :=
  ⟨claim_C2.2.1 ℕ (fun a _ _ => a + 1) [9] 0 (by simp),
    claim_C2.2.2.2.1 [5, 6, 7] 1 (by simp),
    claim_C2.2.2.2.2 1 1 1 mEx [(0 : Fin 1)] 0 (by simp)⟩

/-- The long-lived state of the model during training: the trainable
parameters (abstract `P`: embedding table, attention/feed-forward/norm
parameters, output projection) and the `pe` buffer registered with
`register_buffer`, which `model.parameters()` — and hence the optimizer —
does not contain. -/
structure ModelState (P : Type) (D : ℕ) where
  params : P
  pe : List (Vec D)

/-- One body iteration of the training loop on the full state:
`zero_grad`, forward (reads `pe`), loss, backward, `optimizer.step()`. The
optimizer was built from `model.parameters()`, which excludes the buffer, so
the step rewrites the trainable parameters only (the abstract `upd`) and
leaves `pe` as it is. -/
def ModelState.exampleStep {P : Type} {D : ℕ} (upd : P → List ℕ → ℕ → P)
    (st : ModelState P D) (input : List ℕ) (t : ℕ) : ModelState P D :=
  ⟨upd st.params input t, st.pe⟩

/-- The per-sentence loop of cell 7 on the full state. -/
def ModelState.sentenceStep {P : Type} {D : ℕ} (upd : P → List ℕ → ℕ → P)
    (s : List ℕ) (st : ModelState P D) : ModelState P D :=
  (List.range' 1 (s.length - 1)).foldl
    (fun a i => ModelState.exampleStep upd a (s.take i) (s.getD i 0)) st

/-- One epoch: every tokenized sentence in document order. -/
def ModelState.epochStep {P : Type} {D : ℕ} (upd : P → List ℕ → ℕ → P)
    (data : List (List ℕ)) (st : ModelState P D) : ModelState P D :=
  data.foldl (fun a s => ModelState.sentenceStep upd s a) st

/-- The whole training run: `for epoch in range(epochs)`. -/
def ModelState.run {P : Type} {D : ℕ} (upd : P → List ℕ → ℕ → P) (epochs : ℕ)
    (data : List (List ℕ)) (st : ModelState P D) : ModelState P D :=
  (ModelState.epochStep upd data)^[epochs] st

/-- The same run on the trainable parameters alone. -/
def Trainer.runParams {P : Type} (upd : P → List ℕ → ℕ → P) (epochs : ℕ)
    (data : List (List ℕ)) (θ : P) : P :=
  (fun a => data.foldl (fun b s => Trainer.trainSentence upd s b) a)^[epochs] θ

theorem sentenceStep_params {P : Type} {D : ℕ} (upd : P → List ℕ → ℕ → P)
    (s : List ℕ) (st : ModelState P D) :
    ModelState.sentenceStep upd s st = ⟨Trainer.trainSentence upd s st.params, st.pe⟩ := by
  unfold ModelState.sentenceStep Trainer.trainSentence
  generalize List.range' 1 (s.length - 1) = l
  induction l generalizing st with
  | nil => rfl
  | cons a l ih =>
    rw [List.foldl_cons, List.foldl_cons, ih]
    rfl

theorem epochStep_params {P : Type} {D : ℕ} (upd : P → List ℕ → ℕ → P)
    (data : List (List ℕ)) (st : ModelState P D) :
    ModelState.epochStep upd data st =
      ⟨data.foldl (fun b s => Trainer.trainSentence upd s b) st.params, st.pe⟩ := by
  unfold ModelState.epochStep
  induction data generalizing st with
  | nil => rfl
  | cons s data ih =>
    rw [List.foldl_cons, List.foldl_cons, sentenceStep_params, ih]

/-- C8: over the whole training run, the positional buffer is never modified
— the final state's `pe` equals the initial one — and the trainable
parameters evolve exactly as the fold of per-example optimizer steps: nothing
but the optimizer step mutates them. -/
theorem claim_C8 {P : Type} {D : ℕ} (upd : P → List ℕ → ℕ → P) (epochs : ℕ)
    (data : List (List ℕ)) (st : ModelState P D) :
    ModelState.run upd epochs data st =
      ⟨Trainer.runParams upd epochs data st.params, st.pe⟩ := by
  unfold ModelState.run Trainer.runParams
  induction epochs generalizing st with
  | zero => rfl
  | succ k ih =>
    rw [Function.iterate_succ_apply, Function.iterate_succ_apply, epochStep_params, ih]

/-- The reserved unknown-token key of the vocabulary. -/
def unkWord : String := "<UNK>"

/-- The empty input text. -/
def emptyText : String := ""

/-- The whitespace-separated words of `text`, accumulating the current word in
reverse: the recursion behind Python's `text.split()` (split on runs of
whitespace, discard empty pieces). -/
def pyWordsAux : List Char → List Char → List (List Char)
  | [], acc => if acc = [] then [] else [acc.reverse]
  | c :: cs, acc =>
    if c.isWhitespace then
      if acc = [] then pyWordsAux cs [] else acc.reverse :: pyWordsAux cs []
    else pyWordsAux cs (c :: acc)

/-- Python's `text.split()` (no separator argument): the maximal runs of
non-whitespace characters, in order; the empty text has none. -/
def pySplit (text : String) : List String :=
  (pyWordsAux text.data []).map (fun cs => String.mk cs)

/-- Python `dict` lookup over the vocabulary's (unique-key) entries. -/
def dictLookup : List (String × ℕ) → String → Option ℕ
  | [], _ => none
  | (k, v) :: rest, w => if k = w then some v else dictLookup rest w

/-- `tokenize(text, vocab)`:
`[vocab.get(word, vocab["<UNK>"]) for word in text.split()]`. The default
`vocab["<UNK>"]` is evaluated on every iteration and raises (modelled as
`none`) when the key is missing. -/
def tokenize (text : String) (vocab : List (String × ℕ)) : Option (List ℕ) :=
  (pySplit text).mapM (fun w =>
    (dictLookup vocab unkWord).map (fun u => (dictLookup vocab w).getD u))

theorem dictLookup_mem : ∀ (l : List (String × ℕ)) (w : String) (v : ℕ),
    dictLookup l w = some v → (w, v) ∈ l := by
  intro l
  induction l with
  | nil => intro w v h; exact absurd h (by simp [dictLookup])
  | cons p rest ih =>
    intro w v h
    obtain ⟨k, pv⟩ := p
    unfold dictLookup at h
    by_cases hk : k = w
    · rw [if_pos hk] at h
      subst hk
      have hpv : pv = v := Option.some_inj.mp h
      subst hpv
      exact List.mem_cons_self _ _
    · rw [if_neg hk] at h
      right
      exact ih w v h

theorem mapM_loop_some {α β : Type} (g : α → β) :
    ∀ (l : List α) (acc : List β),
      List.mapM.loop (fun a => some (g a)) l acc = some (acc.reverse ++ l.map g) := by
  intro l
  induction l with
  | nil => intro acc; simp [List.mapM.loop]
  | cons a l ih => intro acc; simp [List.mapM.loop, ih]

theorem mapM_of_some {α β : Type} (g : α → β) (l : List α) :
    (l.mapM (fun a => some (g a))) = some (l.map g) := by
  rw [show (l.mapM (fun a => some (g a))) =
    List.mapM.loop (fun a => some (g a)) l [] from rfl]
  rw [mapM_loop_some]
  rfl

/-- C10: if the vocabulary contains the reserved key and all its ids lie
below the vocabulary size, tokenization succeeds on every text, returns one
id per whitespace-separated word, and every id is a valid embedding row
index; the empty text gives the empty list. -/
theorem claim_C10 (text : String) (vocab : List (String × ℕ)) (V u : ℕ)
    (hunk : dictLookup vocab unkWord = some u)
    (hvals : ∀ p ∈ vocab, p.2 < V) :
    (∃ l, tokenize text vocab = some l ∧
      l.length = (pySplit text).length ∧
      ∀ t ∈ l, t < V) ∧
    tokenize emptyText vocab = some [] := by
  have hu : u < V := hvals (unkWord, u) (dictLookup_mem vocab unkWord u hunk)
  constructor
  · refine ⟨(pySplit text).map (fun w => (dictLookup vocab w).getD u), ?_, ?_, ?_⟩
    · unfold tokenize
      rw [hunk]
      exact mapM_of_some (fun w => (dictLookup vocab w).getD u) (pySplit text)
    · rw [List.length_map]
    · intro t ht
      rw [List.mem_map] at ht
      obtain ⟨w, _, hw⟩ := ht
      rcases hlook : dictLookup vocab w with _ | v
      · rw [hlook] at hw
        simp only [Option.getD_none] at hw
        omega
      · rw [hlook] at hw
        simp only [Option.getD_some] at hw
        have := hvals (w, v) (dictLookup_mem vocab w v hlook)
        omega
  · have hsplit : pySplit emptyText = [] := rfl
    unfold tokenize
    rw [hsplit]
    rfl

/-- The toy vocabulary of cell 8. -/
def vocabEx : List (String × ℕ) :=
  [("hello", 0), ("world", 1), ("how", 2), ("are", 3), ("you", 4), ("<UNK>", 5)]

/-- A text with a known and an unknown word. -/
def textEx : String := "hello world xyz"

/-- Witness for C10 on the toy vocabulary and a text containing an unknown
word. -/
theorem claim_C10_witness :
    (∃ l, tokenize textEx vocabEx = some l ∧
      l.length = (pySplit textEx).length ∧
      ∀ t ∈ l, t < 6) ∧
    tokenize emptyText vocabEx = some [] :=
  claim_C10 textEx vocabEx 6 5 (by decide) (by decide)

end
